import Mathlib

/-
Shallow embedding of the streaming chat client of this repository
(src/frontend/components/chat.tsx).  The decoder/accumulator/session
store/scroll coordinator are translated from the source; JavaScript
strings are modelled as Lean strings (operating on their character
lists), JSON.parse is modelled by a parser for the wire grammar the
client consumes (`data: ` lines carrying `content` / `message_stop`
records), and the React state cells become fields of explicit state
records.  JSON string escapes are not modelled (the payload strings
used below contain none); a backslash inside a payload string makes
the record malformed, matching the restriction to the emitted grammar.
-/

namespace DeepClaude

/-- Message roles, from the `role: "user" | "assistant"` union. -/
inductive Role
  | user
  | assistant
deriving DecidableEq

/-- The `Message` interface: `content` is a string, `thinking` optional. -/
structure Message where
  role : Role
  content : String
  thinking : Option String
deriving DecidableEq

/-- The `StoredChat` interface persisted to localStorage. -/
structure StoredChat where
  id : String
  title : String
  timestamp : String
  messages : List Message
deriving DecidableEq

/-- The two content channels of the stream protocol. -/
inductive Channel
  | thinking
  | text
deriving DecidableEq

/-- Spec-level decoded stream events (tagged union `StreamEvent`). -/
inductive StreamEvent
  | contentDelta (ch : Channel) (fragment : String)
  | stop
  | malformed
deriving DecidableEq

/-- A content block of a `content` record: either a thinking block
(`content_type: "thinking"` with a `thinking` string) or a text block
(with a `text` string). -/
inductive Block
  | thinkingB (t : String)
  | textB (t : String)
deriving DecidableEq

/-- A parsed wire record the client reacts to: `content` or `message_stop`. -/
inductive WireData
  | contentD (blocks : List Block)
  | messageStop
deriving DecidableEq

/-- Whitespace test used to model `line.trim()` being empty. -/
def isWSChar (c : Char) : Bool :=
  c = ' ' || c = '\t' || c = '\n' || c = '\r'

/-- `line.trim()` is the empty string iff every character is whitespace. -/
def trimIsEmpty (l : List Char) : Bool :=
  l.all isWSChar

/-- Model of JavaScript `String.prototype.startsWith`, pattern first. -/
def startsWithL : List Char → List Char → Bool
  | [], _ => true
  | _ :: _, [] => false
  | p :: ps, c :: cs => p = c && startsWithL ps cs

/-- Drop an expected leading pattern, or fail. -/
def dropPfx : List Char → List Char → Option (List Char)
  | [], l => some l
  | _ :: _, [] => none
  | p :: ps, c :: cs => if p = c then dropPfx ps cs else none

/-- Model of JavaScript `chunk.split("\n")`: the list of newline-separated
segments, keeping empty segments (`"".split` gives `[""]`). -/
def jsSplitNl : List Char → List (List Char)
  | [] => [[]]
  | c :: rest =>
    if c = '\n' then [] :: jsSplitNl rest
    else
      match jsSplitNl rest with
      | [] => [[c]]
      | l :: ls => (c :: l) :: ls

/-- The fixed `"data: "` payload marker. -/
def dataPfx : List Char := "data: ".data

/-- The serialized `message_stop` record. -/
def stopJson : List Char := "\x7b\"type\":\"message_stop\"\x7d".data

/-- The leading characters of a serialized `content` record, up to and
including the opening bracket of the block array. -/
def contentHdr : List Char := "\x7b\"type\":\"content\",\"content\":[".data

/-- The leading characters of a serialized thinking block, up to and
including the opening quote of the thinking string. -/
def thinkHdr : List Char := "\x7b\"content_type\":\"thinking\",\"thinking\":\"".data

/-- The leading characters of a serialized text block, up to and
including the opening quote of the text string. -/
def textHdr : List Char := "\x7b\"text\":\"".data

/-- The closing brace of a record, as a one-character pattern. -/
def closeBrace : List Char := "\x7d".data

/-- Parse a JSON string body up to its closing quote (no escapes; a
backslash makes the parse fail, restricting to the emitted grammar). -/
def parseLitChars : List Char → Option (List Char × List Char)
  | [] => none
  | c :: cs =>
    if c = '"' then some ([], cs)
    else if c = '\\' then none
    else
      match parseLitChars cs with
      | some (s, r) => some (c :: s, r)
      | none => none

/-- Parse one content block. -/
def parseBlock (l : List Char) : Option (Block × List Char) :=
  match dropPfx thinkHdr l with
  | some r =>
    match parseLitChars r with
    | some (s, r2) =>
      match dropPfx closeBrace r2 with
      | some r3 => some (.thinkingB (String.mk s), r3)
      | none => none
    | none => none
  | none =>
    match dropPfx textHdr l with
    | some r =>
      match parseLitChars r with
      | some (s, r2) =>
        match dropPfx closeBrace r2 with
        | some r3 => some (.textB (String.mk s), r3)
        | none => none
      | none => none
    | none => none

/-- Parse a nonempty comma-separated block sequence up to and including
the closing bracket; the fuel bounds recursion by the input length. -/
def parseBlockSeq : Nat → List Char → Option (List Block × List Char)
  | 0, _ => none
  | fuel + 1, l =>
    match parseBlock l with
    | none => none
    | some (b, r) =>
      match r with
      | ']' :: r2 => some ([b], r2)
      | ',' :: r2 =>
        match parseBlockSeq fuel r2 with
        | some (bs, r3) => some (b :: bs, r3)
        | none => none
      | _ => none

/-- Parse the (possibly empty) block array after its opening bracket. -/
def parseBlockList (l : List Char) : Option (List Block × List Char) :=
  match l with
  | ']' :: r => some ([], r)
  | _ => parseBlockSeq l.length l

/-- Model of `JSON.parse(line.slice(6))` restricted to the wire grammar:
a `message_stop` record or a `content` record carrying a block array.
Anything else fails to parse (yielding the malformed/no-op path). -/
def parseDataL (l : List Char) : Option WireData :=
  if l = stopJson then some .messageStop
  else
    match dropPfx contentHdr l with
    | none => none
    | some r =>
      match parseBlockList r with
      | some (bs, r2) => if r2 = closeBrace then some (.contentD bs) else none
      | none => none

/-- The events a block contributes: the source guards on JavaScript
truthiness (`content.thinking` / `content.text`), so empty fragments
contribute nothing. -/
def blockEvents : Block → List StreamEvent
  | .thinkingB t => if t = "" then [] else [.contentDelta .thinking t]
  | .textB t => if t = "" then [] else [.contentDelta .text t]

/-- Event-level view of `processLine`: lines failing the
`!line.trim() || !line.startsWith("data: ")` guard are ignored, a line
whose payload fails to parse is malformed, a `content` record emits one
delta per truthy block in order, and `message_stop` yields `Stop`. -/
def decodeLineL (l : List Char) : List StreamEvent :=
  if trimIsEmpty l || !(startsWithL dataPfx l) then []
  else
    match parseDataL (l.drop 6) with
    | none => [.malformed]
    | some .messageStop => [.stop]
    | some (.contentD bs) => bs.flatMap blockEvents

/-- The reader loop (`handleSubmit`): each read chunk is decoded and
split on newlines in isolation, with no carry-over buffer between
chunks; every resulting segment is fed to the line decoder. -/
def decodeChunksL (chunks : List (List Char)) : List StreamEvent :=
  chunks.flatMap (fun c => (jsSplitNl c).flatMap decodeLineL)

/-- The pure Message Accumulator: the per-event state transition applied
to `currentMessageRef.current` (thinking uses `(thinking || "") + f`,
text appends, `Stop` and `Malformed` leave the message unchanged). -/
def applyEvent (m : Message) : StreamEvent → Message
  | .contentDelta .thinking f => { m with thinking := some ((m.thinking.getD "") ++ f) }
  | .contentDelta .text f => { m with content := m.content ++ f }
  | .stop => m
  | .malformed => m

/-- The per-block update of `currentMessageRef.current` exactly as the
source branches: a truthy thinking block appends to `thinking`, else a
truthy `text` field appends to `content`, else nothing changes. -/
def applyBlockMsg (m : Message) : Block → Message
  | .thinkingB t =>
    if t = "" then m else { m with thinking := some ((m.thinking.getD "") ++ t) }
  | .textB t =>
    if t = "" then m else { m with content := m.content ++ t }

/-- The `setOpenThinking(messages.length)` call on a truthy thinking
block; `capLen` is the length of the `messages` closure captured by
`handleSubmit` at submission time. -/
def updateOpenThinking (ot : Option Nat) (capLen : Nat) : Block → Option Nat
  | .thinkingB t => if t = "" then ot else some capLen
  | .textB _ => ot

/-- Appending or replacing the last message (the `setMessages` updater in
`processLine`): when the list is nonempty and its last message is an
assistant message it is replaced in place, otherwise the new message is
appended. -/
def appendOrReplaceLast (msgs : List Message) (m : Message) : List Message :=
  match msgs.getLast? with
  | some last => if last.role = .assistant then msgs.dropLast ++ [m] else msgs ++ [m]
  | none => msgs ++ [m]

/-- The mutable state driven by one in-flight stream: the message ref,
the rendered message list, the open-thinking index, the
thinking-complete flag, and the captured stale `messages.length`. -/
structure StreamState where
  currentMessage : Option Message
  messages : List Message
  openThinking : Option Nat
  isThinkingComplete : Bool
  capturedLen : Nat
deriving DecidableEq

/-- The `for (const content of data.content)` loop: each block first
checks the ref (an absent ref aborts the whole line), applies the block
to the ref, updates the open-thinking index, and commits the updated
message through `appendOrReplaceLast`. -/
def processBlocks : StreamState → List Block → StreamState
  | s, [] => s
  | s, b :: bs =>
    match s.currentMessage with
    | none => s
    | some m =>
      processBlocks
        { currentMessage := some (applyBlockMsg m b)
          messages := appendOrReplaceLast s.messages (applyBlockMsg m b)
          openThinking := updateOpenThinking s.openThinking s.capturedLen b
          isThinkingComplete := s.isThinkingComplete
          capturedLen := s.capturedLen } bs

/-- `processLine`: guard, parse, then either apply the content blocks,
set the thinking-complete flag on `message_stop`, or (on a parse
failure, caught and logged) leave the state unchanged. -/
def processLineS (s : StreamState) (l : List Char) : StreamState :=
  if trimIsEmpty l || !(startsWithL dataPfx l) then s
  else
    match parseDataL (l.drop 6) with
    | none => s
    | some .messageStop => { s with isThinkingComplete := true }
    | some (.contentD bs) => processBlocks s bs

/-- Processing a sequence of complete lines in arrival order. -/
def processLinesS (s : StreamState) (lines : List (List Char)) : StreamState :=
  lines.foldl processLineS s

/-- The user message appended optimistically at submission. -/
def userMessage (input : String) : Message :=
  { role := .user, content := input, thinking := none }

/-- The empty assistant placeholder (and the initial value of
`currentMessageRef.current`): note `thinking` is initialized to the
empty string, so the field is present from the start. -/
def placeholderMessage : Message :=
  { role := .assistant, content := "", thinking := some "" }

/-- The stream state right after `handleSubmit` appended the user
message and the assistant placeholder and initialized the ref. -/
def submitState (prev : List Message) (input : String) (capLen : Nat)
    (ot : Option Nat) : StreamState :=
  { currentMessage := some placeholderMessage
    messages := prev ++ [userMessage input, placeholderMessage]
    openThinking := ot
    isThinkingComplete := false
    capturedLen := capLen }

/-- Recognizer for thinking deltas, used to state which streams carried
no thinking content. -/
def isThinkingDelta : StreamEvent → Bool
  | .contentDelta .thinking _ => true
  | _ => false

/-- The Session Store state: the chat list, the current chat id, the
visible transcript, and the durable localStorage record (the parsed
`deepclaude-chats` blob, `none` when the key is absent). -/
structure AppState where
  chats : List StoredChat
  currentChatId : Option String
  messages : List Message
  storage : Option (List StoredChat)
deriving DecidableEq

/-- The persistence effect: `localStorage.setItem` runs only when the
chat list is nonempty; otherwise the durable record is left as it was. -/
def persistChats (chats : List StoredChat) (old : Option (List StoredChat)) :
    Option (List StoredChat) :=
  if chats.length > 0 then some chats else old

/-- `deleteChat(chatId)`: filter the chat out of the list; when it was
current, clear the current id and the visible transcript; then the
persistence effect observes the new list. -/
def deleteChatS (s : AppState) (chatId : String) : AppState :=
  { chats := s.chats.filter (fun c => c.id ≠ chatId)
    currentChatId := if s.currentChatId = some chatId then none else s.currentChatId
    messages := if s.currentChatId = some chatId then [] else s.messages
    storage := persistChats (s.chats.filter (fun c => c.id ≠ chatId)) s.storage }

/-- `clearAllChats()`: empty the list, clear current id and transcript,
and `localStorage.removeItem` erases the durable record (the skip-empty
persistence effect then leaves it erased). -/
def clearAllChatsS (_s : AppState) : AppState :=
  { chats := [], currentChatId := none, messages := [], storage := none }

/-- The chat created by `createNewChat` (and on mount): default title,
no messages. -/
def freshChat (chatId ts : String) : StoredChat :=
  { id := chatId, title := "New Chat", timestamp := ts, messages := [] }

/-- The mount effect: load any persisted chats, then always create a
fresh chat that becomes current; the persistence effect then observes
the resulting nonempty list. -/
def restartS (storage : Option (List StoredChat)) (chatId ts : String) : AppState :=
  { chats := storage.getD [] ++ [freshChat chatId ts]
    currentChatId := some chatId
    messages := []
    storage := persistChats (storage.getD [] ++ [freshChat chatId ts]) storage }

/-- `generateChatTitle`: the first 20 characters of the first message. -/
def generateChatTitle (firstMessage : String) : String :=
  firstMessage.take 20

/-- `updateCurrentChat`: when a chat is current and the transcript is
nonempty, copy the transcript into that chat and, when the stored chat
had no messages yet, derive its title from the first message; the
persistence effect then observes the new list. -/
def updateCurrentChatS (s : AppState) : AppState :=
  match s.currentChatId, s.messages with
  | some cid, m :: ms =>
    { s with
      chats := s.chats.map (fun c =>
        if c.id = cid then
          { c with
            messages := m :: ms
            title := if c.messages.isEmpty then generateChatTitle m.content else c.title }
        else c)
      storage := persistChats (s.chats.map (fun c =>
        if c.id = cid then
          { c with
            messages := m :: ms
            title := if c.messages.isEmpty then generateChatTitle m.content else c.title }
        else c)) s.storage }
  | _, _ => s

/-- The Scroll Coordinator state: the `isAutoScrollEnabled` flag, the
single pending animation-frame slot (`scrollRef.current`), and a count
of executed scroll-to-end actions. -/
structure ScrollState where
  isAutoScrollEnabled : Bool
  pending : Bool
  fired : Nat
deriving DecidableEq

/-- Observable scroll-coordinator happenings: a content-growth effect
run (with whether the message list is nonempty) and a browser paint
(which runs the pending animation-frame callback, if any). -/
inductive UiEvent
  | growth (msgsNonempty : Bool)
  | paint
deriving DecidableEq

/-- One scroll-coordinator step: growth schedules `scrollToBottom` only
when auto-scroll is enabled (cancelling any pending frame and occupying
the single slot); a paint runs the pending callback, performing exactly
one scroll-to-end action and freeing the slot. -/
def scrollStep (s : ScrollState) : UiEvent → ScrollState
  | .growth ne =>
    if s.isAutoScrollEnabled && ne then { s with pending := true } else s
  | .paint =>
    if s.pending then { s with pending := false, fired := s.fired + 1 } else s

/-- Running a sequence of scroll-coordinator events. -/
def scrollRun (s : ScrollState) (evs : List UiEvent) : ScrollState :=
  evs.foldl scrollStep s

/-- `handleScroll`: recompute `isAutoScrollEnabled` from the container
geometry, true iff the gap to the content end is below the fixed
50-pixel threshold. -/
def handleScrollS (s : ScrollState) (scrollTop scrollHeight clientHeight : Int) :
    ScrollState :=
  { s with isAutoScrollEnabled := decide (scrollHeight - (scrollTop + clientHeight) < 50) }

/-- A burst of `n` content-growth events with a nonempty message list
and no intervening paint. -/
def growthBurst (n : Nat) : List UiEvent :=
  List.replicate n (.growth true)

/-- A concrete `message_stop` wire line. -/
def stopLineL : List Char := "data: \x7b\"type\":\"message_stop\"\x7d".data

/-- The first half of `stopLineL` when the network splits the line
mid-record. -/
def stopHalfA : List Char := "data: \x7b\"type\":\"mes".data

/-- The second half of `stopLineL` under the same split. -/
def stopHalfB : List Char := "sage_stop\"\x7d".data

/-- A concrete `content` wire line carrying one text block `"42"`. -/
def textLine42 : List Char :=
  "data: \x7b\"type\":\"content\",\"content\":[\x7b\"text\":\"42\"\x7d]\x7d".data

/-- A concrete `content` wire line carrying one thinking block `"hm"`. -/
def thinkLineHm : List Char :=
  "data: \x7b\"type\":\"content\",\"content\":[\x7b\"content_type\":\"thinking\",\"thinking\":\"hm\"\x7d]\x7d".data

/-- An apostrophe, kept out of string literals. -/
def apos : String := String.mk [Char.ofNat 39]

/-- The first user message of the title-derivation example. -/
def strawberryMsg : String := "How many r" ++ apos ++ "s in strawberry?"

/-- The 20-character title of the title-derivation example. -/
def strawberryTitle : String := "How many r" ++ apos ++ "s in stra"

/-- A chunk built from newline-terminated complete lines, as one network
read delivering them together. -/
def mkChunk (g : List (List Char)) : List Char :=
  (g.map (fun l => l ++ ['\n'])).flatten

/-- Claim C1 formalized: decoding depends only on the concatenated byte
stream, not on where the chunk boundaries fall. -/
def chunkInvarianceClaim : Prop :=
  ∀ c1 c2 : List (List Char),
    c1.flatten = c2.flatten → decodeChunksL c1 = decodeChunksL c2

/-- Claim C3 formalized: a line decoding to `Stop` is terminal, so the
lines after it contribute nothing to the state. -/
def stopTerminalClaim : Prop :=
  ∀ (s : StreamState) (line : List Char) (rest : List (List Char)),
    decodeLineL line = [.stop] →
    processLinesS s (line :: rest) = processLineS s line

/-- Claim C8 formalized: after a stream carrying no thinking delta,
every assistant message stored in the transcript has an absent
`thinking` field. -/
def thinkingPresenceClaim : Prop :=
  ∀ (prev : List Message) (input : String) (capLen : Nat) (ot : Option Nat)
    (lines : List (List Char)),
    ((lines.flatMap decodeLineL).all (fun e => !(isThinkingDelta e))) = true →
    ∀ msg ∈ (processLinesS (submitState prev input capLen ot) lines).messages,
      msg.role = .assistant → msg.thinking = none

/-- The streaming invariant established at submission time: the message
ref (when set) holds an assistant message and the last stored message is
an assistant message. -/
def streamInv (s : StreamState) : Prop :=
  (∀ m, s.currentMessage = some m → m.role = .assistant) ∧
  s.messages.getLast?.map Message.role = some .assistant

/-- The streaming invariant strengthened with the thinking field: the
ref (when set) and the last stored message are assistant messages whose
`thinking` field is the (present) empty string. -/
def streamInvT (s : StreamState) : Prop :=
  (∀ m, s.currentMessage = some m → m.role = .assistant ∧ m.thinking = some "") ∧
  s.messages.getLast?.map Message.role = some .assistant ∧
  s.messages.getLast?.map Message.thinking = some (some "")

/-- A concrete stored chat used as a witness input. -/
def chatA : StoredChat := freshChat "a" "t1"

/-- A second concrete stored chat used as a witness input. -/
def chatB : StoredChat := freshChat "b" "t2"

/-- A concrete store with two chats, the first one current. -/
def storeAB : AppState :=
  { chats := [chatA, chatB], currentChatId := some "a"
    messages := [userMessage "hi"], storage := none }

/-- A concrete store holding its single chat both live and persisted. -/
def storeSingle : AppState :=
  { chats := [chatA], currentChatId := some "a", messages := [], storage := some [chatA] }

/-- A concrete store whose current chat is fresh and whose transcript
holds the title-derivation example message. -/
def strawberryStore : AppState :=
  { chats := [chatA], currentChatId := some "a"
    messages := [userMessage strawberryMsg], storage := none }

set_option maxRecDepth 10000

theorem processLinesS_cons (s : StreamState) (l : List Char) (ls : List (List Char)) :
    processLinesS s (l :: ls) = processLinesS (processLineS s l) ls := rfl

theorem decodeLineL_nil : decodeLineL [] = [] := rfl

theorem scrollRun_cons (s : ScrollState) (e : UiEvent) (es : List UiEvent) :
    scrollRun s (e :: es) = scrollRun (scrollStep s e) es := rfl

theorem applyBlockMsg_role (m : Message) (b : Block) : (applyBlockMsg m b).role = m.role := by
  cases b <;> dsimp [applyBlockMsg] <;> split <;> rfl

theorem applyBlockMsg_thinking_of_no_delta (m : Message) (b : Block)
    (h : (blockEvents b).all (fun e => !(isThinkingDelta e)) = true) :
    (applyBlockMsg m b).thinking = m.thinking := by
  cases b with
  | thinkingB t =>
    by_cases ht : t = ""
    · simp [applyBlockMsg, ht]
    · exfalso; simp [blockEvents, ht, isThinkingDelta] at h
  | textB t => by_cases ht : t = "" <;> simp [applyBlockMsg, ht]

theorem appendOrReplaceLast_of_last_assistant (msgs : List Message) (m : Message)
    (h : msgs.getLast?.map Message.role = some .assistant) :
    appendOrReplaceLast msgs m = msgs.dropLast ++ [m] := by
  cases hm : msgs.getLast? with
  | none => rw [hm] at h; simp at h
  | some last =>
    rw [hm] at h
    simp only [Option.map_some'] at h
    have hr : last.role = .assistant := Option.some.inj h
    simp only [appendOrReplaceLast, hm, hr, if_true]

theorem appendOrReplaceLast_length_of_last_assistant (msgs : List Message) (m : Message)
    (h : msgs.getLast?.map Message.role = some .assistant) :
    (appendOrReplaceLast msgs m).length = msgs.length := by
  rw [appendOrReplaceLast_of_last_assistant msgs m h]
  have hne : msgs ≠ [] := by rintro rfl; simp at h
  have hpos : 0 < msgs.length := List.length_pos.mpr hne
  simp
  omega

theorem getLast?_dropLast_concat (msgs : List Message) (m : Message) :
    (msgs.dropLast ++ [m]).getLast? = some m := List.getLast?_concat _

theorem applyEvent_split (m : Message) (ch : Channel) (a b : String) :
    applyEvent (applyEvent m (.contentDelta ch a)) (.contentDelta ch b) =
      applyEvent m (.contentDelta ch (a ++ b)) := by
  cases ch <;> simp [applyEvent, String.append_assoc]

theorem malformed_notin_blockEvents (b : Block) :
    StreamEvent.malformed ∉ blockEvents b := by
  cases b <;> dsimp [blockEvents] <;> split <;> simp

theorem processLineS_of_malformed (s : StreamState) (l : List Char)
    (h : decodeLineL l = [.malformed]) : processLineS s l = s := by
  by_cases hc : (trimIsEmpty l || !(startsWithL dataPfx l)) = true
  · simp [processLineS, hc]
  · simp only [decodeLineL] at h
    rw [if_neg hc] at h
    cases hp : parseDataL (l.drop 6) with
    | none => simp [processLineS, hc, hp]
    | some w =>
      cases w with
      | messageStop =>
        rw [hp] at h
        have h2 : ([StreamEvent.stop] : List StreamEvent) = [StreamEvent.malformed] := h
        simp at h2
      | contentD bs =>
        rw [hp] at h
        exfalso
        have h2 : bs.flatMap blockEvents = [StreamEvent.malformed] := h
        have hmem : StreamEvent.malformed ∈ bs.flatMap blockEvents := by
          rw [h2]; exact List.mem_cons_self _ _
        obtain ⟨b, _, hb⟩ := List.mem_flatMap.mp hmem
        exact malformed_notin_blockEvents b hb

/-- C2: the Accumulator transition rules match the spec: a Thinking
delta appends to `(thinking ?? "") + f`, a Text delta appends to
`content`, a Malformed event (and a line decoding to Malformed) leaves
the state unchanged, and splitting one ContentDelta fragment into two
consecutive fragments with the same concatenated text yields an
identical final Message wherever the event occurs in the stream. -/
theorem accumulator_transition_rules :
    (∀ (m : Message) (f : String),
      applyEvent m (.contentDelta .thinking f) =
        { m with thinking := some ((m.thinking.getD "") ++ f) }) ∧
    (∀ (m : Message) (f : String),
      applyEvent m (.contentDelta .text f) = { m with content := m.content ++ f }) ∧
    (∀ m : Message, applyEvent m .malformed = m) ∧
    (∀ (s : StreamState) (l : List Char),
      decodeLineL l = [.malformed] → processLineS s l = s) ∧
    (∀ (m : Message) (ch : Channel) (a b : String),
      applyEvent (applyEvent m (.contentDelta ch a)) (.contentDelta ch b) =
        applyEvent m (.contentDelta ch (a ++ b))) ∧
    (∀ (m : Message) (pre post : List StreamEvent) (ch : Channel) (a b : String),
      (pre ++ .contentDelta ch (a ++ b) :: post).foldl applyEvent m =
        (pre ++ .contentDelta ch a :: .contentDelta ch b :: post).foldl applyEvent m) := by
  refine ⟨fun m f => rfl, fun m f => rfl, fun m => rfl,
    processLineS_of_malformed, applyEvent_split, ?_⟩
  intro m pre post ch a b
  rw [List.foldl_append, List.foldl_append]
  simp only [List.foldl_cons]
  rw [applyEvent_split]

theorem accumulator_transition_rules_witness :
    processLineS (submitState [] "hi" 0 none) stopHalfA = submitState [] "hi" 0 none ∧
    applyEvent placeholderMessage (.contentDelta .thinking "ab") =
      { placeholderMessage with
        thinking := some ((placeholderMessage.thinking.getD "") ++ "ab") } :=
  ⟨accumulator_transition_rules.2.2.2.1 (submitState [] "hi" 0 none) stopHalfA (by decide),
   accumulator_transition_rules.1 placeholderMessage "ab"⟩

/-- C5: deleting the current session removes it, clears the current
session id, and empties the visible transcript; deleting a non-current
session removes only that session and leaves the current session id and
the visible transcript unchanged. -/
theorem delete_session_semantics :
    (∀ (s : AppState) (chatId : String), s.currentChatId = some chatId →
      (deleteChatS s chatId).chats = s.chats.filter (fun c => c.id ≠ chatId) ∧
      (deleteChatS s chatId).currentChatId = none ∧
      (deleteChatS s chatId).messages = []) ∧
    (∀ (s : AppState) (chatId : String), s.currentChatId ≠ some chatId →
      (deleteChatS s chatId).chats = s.chats.filter (fun c => c.id ≠ chatId) ∧
      (deleteChatS s chatId).currentChatId = s.currentChatId ∧
      (deleteChatS s chatId).messages = s.messages) := by
  constructor <;> intro s chatId h <;> simp [deleteChatS, h]

theorem delete_session_semantics_witness :
    ((deleteChatS storeAB "a").chats = storeAB.chats.filter (fun c => c.id ≠ "a") ∧
      (deleteChatS storeAB "a").currentChatId = none ∧
      (deleteChatS storeAB "a").messages = []) ∧
    ((deleteChatS storeAB "b").chats = storeAB.chats.filter (fun c => c.id ≠ "b") ∧
      (deleteChatS storeAB "b").currentChatId = storeAB.currentChatId ∧
      (deleteChatS storeAB "b").messages = storeAB.messages) :=
  ⟨delete_session_semantics.1 storeAB "a" rfl,
   delete_session_semantics.2 storeAB "b" (by decide)⟩

/-- C6: clearAll removes every session, erases the durable record
rather than persisting an empty mapping, and clears the current id; a
restart then loads zero persisted sessions and creates exactly one
fresh empty session that becomes current. -/
theorem clear_all_then_restart (s : AppState) (newId ts : String) :
    (clearAllChatsS s).chats = [] ∧
    (clearAllChatsS s).currentChatId = none ∧
    (clearAllChatsS s).messages = [] ∧
    (clearAllChatsS s).storage = none ∧
    (restartS (clearAllChatsS s).storage newId ts).chats = [freshChat newId ts] ∧
    (restartS (clearAllChatsS s).storage newId ts).currentChatId = some newId ∧
    (restartS (clearAllChatsS s).storage newId ts).messages = [] ∧
    (freshChat newId ts).messages = [] := by
  exact ⟨rfl, rfl, rfl, rfl, rfl, rfl, rfl, rfl⟩

theorem jsSplitNl_append (l r : List Char) (h : '\n' ∉ l) :
    jsSplitNl (l ++ '\n' :: r) = l :: jsSplitNl r := by
  induction l with
  | nil => simp [jsSplitNl]
  | cons c l ih =>
    have hc : c ≠ '\n' := by
      intro e
      exact h (e ▸ List.mem_cons_self c l)
    have hl : '\n' ∉ l := fun hm => h (List.mem_cons_of_mem c hm)
    simp only [List.cons_append, jsSplitNl, if_neg hc]
    rw [List.append_eq, ih hl]

theorem jsSplitNl_mkChunk : ∀ (g : List (List Char)), (∀ l ∈ g, '\n' ∉ l) →
    jsSplitNl (mkChunk g) = g ++ [[]] := by
  intro g
  induction g with
  | nil =>
    intro _
    simp [mkChunk, jsSplitNl]
  | cons l g ih =>
    intro h
    have h1 : '\n' ∉ l := h l (List.mem_cons_self l g)
    have h2 : ∀ x ∈ g, '\n' ∉ x := fun x hx => h x (List.mem_cons_of_mem l hx)
    have hchunk : mkChunk (l :: g) = l ++ '\n' :: mkChunk g := by
      simp [mkChunk, List.append_assoc]
    rw [hchunk, jsSplitNl_append l _ h1, ih h2]
    rfl

theorem decode_mkChunk (g : List (List Char)) (h : ∀ l ∈ g, '\n' ∉ l) :
    (jsSplitNl (mkChunk g)).flatMap decodeLineL = g.flatMap decodeLineL := by
  rw [jsSplitNl_mkChunk g h]
  simp [decodeLineL_nil]

theorem decodeChunksL_mkChunks : ∀ (gs : List (List (List Char))),
    (∀ g ∈ gs, ∀ l ∈ g, '\n' ∉ l) →
    decodeChunksL (gs.map mkChunk) = gs.flatten.flatMap decodeLineL := by
  intro gs
  induction gs with
  | nil => intro _; rfl
  | cons g gs ih =>
    intro h
    have h1 := h g (List.mem_cons_self g gs)
    have h2 : ∀ g' ∈ gs, ∀ l ∈ g', '\n' ∉ l :=
      fun g' hg' => h g' (List.mem_cons_of_mem g hg')
    simp only [List.map_cons, decodeChunksL, List.flatMap_cons]
    rw [decode_mkChunk g h1]
    have hrest := ih h2
    simp only [decodeChunksL] at hrest
    rw [hrest]
    simp

/-- C1 counterexample: the decoder is not chunking-invariant, because
the reader loop splits each chunk on newlines in isolation and keeps no
buffer across reads; splitting the `message_stop` line into two reads
turns its `Stop` event into a skipped fragment plus a malformed one. -/
theorem decoder_chunking_invariance_refuted : ¬ chunkInvarianceClaim := by
  intro h
  have := h [stopLineL] [stopHalfA, stopHalfB] (by decide)
  exact absurd this (by decide)

/-- C1 amended: chunking-invariance holds for partitions whose chunk
boundaries fall on line boundaries (each read delivering whole
newline-terminated lines): any two such groupings of the same lines
decode to the same StreamEvent sequence; a boundary inside a line loses
that line (see the counterexample). -/
theorem decoder_line_aligned_chunking_invariance :
    ∀ (g1 g2 : List (List (List Char))),
      (∀ g ∈ g1, ∀ l ∈ g, '\n' ∉ l) →
      (∀ g ∈ g2, ∀ l ∈ g, '\n' ∉ l) →
      g1.flatten = g2.flatten →
      decodeChunksL (g1.map mkChunk) = decodeChunksL (g2.map mkChunk) := by
  intro g1 g2 h1 h2 hf
  rw [decodeChunksL_mkChunks g1 h1, decodeChunksL_mkChunks g2 h2, hf]

theorem decoder_line_aligned_chunking_invariance_witness :
    (∀ g ∈ [[textLine42, stopLineL]], ∀ l ∈ g, '\n' ∉ l) ∧
    (∀ g ∈ [[textLine42], [stopLineL]], ∀ l ∈ g, '\n' ∉ l) ∧
    ([[textLine42, stopLineL]] : List (List (List Char))).flatten =
      ([[textLine42], [stopLineL]] : List (List (List Char))).flatten ∧
    decodeChunksL ([[textLine42, stopLineL]].map mkChunk) =
      decodeChunksL ([[textLine42], [stopLineL]].map mkChunk) :=
  ⟨by decide, by decide, by decide,
   decoder_line_aligned_chunking_invariance [[textLine42, stopLineL]]
     [[textLine42], [stopLineL]] (by decide) (by decide) (by decide)⟩

theorem processLineS_stopLine (s : StreamState) :
    processLineS s stopLineL = { s with isThinkingComplete := true } := by
  have h1 : (trimIsEmpty stopLineL || !(startsWithL dataPfx stopLineL)) = false := by decide
  have h2 : parseDataL (stopLineL.drop 6) = some WireData.messageStop := by decide
  simp [processLineS, h1, h2]

/-- C3 counterexample: decoding `message_stop` is not terminal: the
source merely sets the thinking-complete flag, and lines after a
`message_stop` line are still processed and still mutate the message. -/
theorem stop_terminal_refuted : ¬ stopTerminalClaim := by
  intro h
  have := h (submitState [] "hi" 0 none) stopLineL [textLine42] (by decide)
  exact absurd this (by decide)

/-- C3 amended: a `message_stop` record only sets the thinking-complete
flag and changes nothing else; the remaining lines then continue to be
processed from that state (no cut-off of the stream). -/
theorem message_stop_sets_flag_only (s : StreamState) (rest : List (List Char)) :
    processLinesS s (stopLineL :: rest) =
      processLinesS { s with isThinkingComplete := true } rest := by
  rw [processLinesS_cons, processLineS_stopLine]

theorem processBlocks_inv : ∀ (bs : List Block) (s : StreamState), streamInv s →
    streamInv (processBlocks s bs) ∧
    (processBlocks s bs).messages.length = s.messages.length := by
  intro bs
  induction bs with
  | nil => intro s h; exact ⟨h, rfl⟩
  | cons b bs ih =>
    intro s h
    cases hcm : s.currentMessage with
    | none =>
      simp only [processBlocks, hcm]
      exact ⟨h, trivial⟩
    | some m =>
      have hrole : (applyBlockMsg m b).role = Role.assistant := by
        rw [applyBlockMsg_role]
        exact h.1 m hcm
      have hlen :=
        appendOrReplaceLast_length_of_last_assistant s.messages (applyBlockMsg m b) h.2
      have hlast :
          (appendOrReplaceLast s.messages (applyBlockMsg m b)).getLast?.map Message.role =
            some Role.assistant := by
        rw [appendOrReplaceLast_of_last_assistant s.messages _ h.2,
          getLast?_dropLast_concat]
        simp [hrole]
      simp only [processBlocks, hcm]
      have hstep := ih
        { currentMessage := some (applyBlockMsg m b)
          messages := appendOrReplaceLast s.messages (applyBlockMsg m b)
          openThinking := updateOpenThinking s.openThinking s.capturedLen b
          isThinkingComplete := s.isThinkingComplete
          capturedLen := s.capturedLen }
        ⟨fun m' hm' => (Option.some.inj hm') ▸ hrole, hlast⟩
      exact ⟨hstep.1, by rw [hstep.2]; exact hlen⟩

theorem processLineS_inv (s : StreamState) (l : List Char) (h : streamInv s) :
    streamInv (processLineS s l) ∧
    (processLineS s l).messages.length = s.messages.length := by
  by_cases hc : (trimIsEmpty l || !(startsWithL dataPfx l)) = true
  · simp only [processLineS, hc, if_true]
    exact ⟨h, trivial⟩
  · simp only [processLineS]
    rw [if_neg hc]
    cases hp : parseDataL (l.drop 6) with
    | none => exact ⟨h, rfl⟩
    | some w =>
      cases w with
      | messageStop => exact ⟨⟨h.1, h.2⟩, rfl⟩
      | contentD bs => exact processBlocks_inv bs s h

theorem processLinesS_inv : ∀ (lines : List (List Char)) (s : StreamState), streamInv s →
    streamInv (processLinesS s lines) ∧
    (processLinesS s lines).messages.length = s.messages.length := by
  intro lines
  induction lines with
  | nil => intro s h; exact ⟨h, rfl⟩
  | cons l ls ih =>
    intro s h
    rw [processLinesS_cons]
    obtain ⟨h1, h2⟩ := processLineS_inv s l h
    obtain ⟨h3, h4⟩ := ih _ h1
    exact ⟨h3, by rw [h4, h2]⟩

theorem submitState_inv (prev : List Message) (input : String) (capLen : Nat)
    (ot : Option Nat) : streamInv (submitState prev input capLen ot) := by
  constructor
  · intro m hm
    have : placeholderMessage = m := Option.some.inj hm
    rw [← this]
    rfl
  · simp [submitState, placeholderMessage]

/-- C4: `appendOrReplaceLast` replaces the last message in place when it
is an assistant message and appends otherwise; consequently, starting
from the submission state (user message plus empty assistant
placeholder appended), processing any stream lines never changes the
message-list length: it stays at the pre-submission length plus two. -/
theorem slot_reuse_length_invariant :
    (∀ (msgs : List Message) (m : Message),
      msgs.getLast?.map Message.role = some .assistant →
      appendOrReplaceLast msgs m = msgs.dropLast ++ [m] ∧
      (appendOrReplaceLast msgs m).length = msgs.length) ∧
    (∀ (msgs : List Message) (m : Message),
      msgs.getLast?.map Message.role ≠ some .assistant →
      appendOrReplaceLast msgs m = msgs ++ [m]) ∧
    (∀ (prev : List Message) (input : String) (capLen : Nat) (ot : Option Nat)
      (lines : List (List Char)),
      (processLinesS (submitState prev input capLen ot) lines).messages.length =
        prev.length + 2) := by
  refine ⟨?_, ?_, ?_⟩
  · intro msgs m h
    exact ⟨appendOrReplaceLast_of_last_assistant msgs m h,
      appendOrReplaceLast_length_of_last_assistant msgs m h⟩
  · intro msgs m h
    cases hm : msgs.getLast? with
    | none => simp only [appendOrReplaceLast, hm]
    | some last =>
      have hr : last.role ≠ Role.assistant := by
        intro e
        exact h (by rw [hm, Option.map_some', e])
      simp only [appendOrReplaceLast, hm, hr, if_false]
  · intro prev input capLen ot lines
    have h := (processLinesS_inv lines _ (submitState_inv prev input capLen ot)).2
    rw [h]
    simp [submitState]

theorem slot_reuse_length_invariant_witness :
    (appendOrReplaceLast [placeholderMessage] placeholderMessage).length =
      ([placeholderMessage] : List Message).length ∧
    appendOrReplaceLast [userMessage "hi"] placeholderMessage =
      [userMessage "hi"] ++ [placeholderMessage] ∧
    (processLinesS (submitState [] "hi" 0 none) [textLine42]).messages.length =
      ([] : List Message).length + 2 :=
  ⟨(slot_reuse_length_invariant.1 [placeholderMessage] placeholderMessage (by decide)).2,
   slot_reuse_length_invariant.2.1 [userMessage "hi"] placeholderMessage (by decide),
   slot_reuse_length_invariant.2.2 [] "hi" 0 none [textLine42]⟩

theorem processBlocks_invT : ∀ (bs : List Block) (s : StreamState),
    (bs.flatMap blockEvents).all (fun e => !(isThinkingDelta e)) = true →
    streamInvT s → streamInvT (processBlocks s bs) := by
  intro bs
  induction bs with
  | nil => intro s _ h; exact h
  | cons b bs ih =>
    intro s hall h
    rw [List.flatMap_cons, List.all_append] at hall
    simp only [Bool.and_eq_true] at hall
    obtain ⟨hb, hbs⟩ := hall
    cases hcm : s.currentMessage with
    | none =>
      simp only [processBlocks, hcm]
      exact h
    | some m =>
      obtain ⟨hmr, hmt⟩ := h.1 m hcm
      have hrole : (applyBlockMsg m b).role = Role.assistant := by
        rw [applyBlockMsg_role]; exact hmr
      have hthink : (applyBlockMsg m b).thinking = some "" := by
        rw [applyBlockMsg_thinking_of_no_delta m b hb]; exact hmt
      have hlast1 :
          (appendOrReplaceLast s.messages (applyBlockMsg m b)).getLast?.map Message.role =
            some Role.assistant := by
        rw [appendOrReplaceLast_of_last_assistant s.messages _ h.2.1,
          getLast?_dropLast_concat]
        simp [hrole]
      have hlast2 :
          (appendOrReplaceLast s.messages (applyBlockMsg m b)).getLast?.map Message.thinking =
            some (some "") := by
        rw [appendOrReplaceLast_of_last_assistant s.messages _ h.2.1,
          getLast?_dropLast_concat]
        simp [hthink]
      simp only [processBlocks, hcm]
      exact ih
        { currentMessage := some (applyBlockMsg m b)
          messages := appendOrReplaceLast s.messages (applyBlockMsg m b)
          openThinking := updateOpenThinking s.openThinking s.capturedLen b
          isThinkingComplete := s.isThinkingComplete
          capturedLen := s.capturedLen }
        hbs
        ⟨fun m' hm' => (Option.some.inj hm') ▸ ⟨hrole, hthink⟩, hlast1, hlast2⟩

theorem processLineS_invT (s : StreamState) (l : List Char)
    (hall : (decodeLineL l).all (fun e => !(isThinkingDelta e)) = true)
    (h : streamInvT s) : streamInvT (processLineS s l) := by
  by_cases hc : (trimIsEmpty l || !(startsWithL dataPfx l)) = true
  · simp only [processLineS, hc, if_true]
    exact h
  · simp only [decodeLineL] at hall
    rw [if_neg hc] at hall
    simp only [processLineS]
    rw [if_neg hc]
    cases hp : parseDataL (l.drop 6) with
    | none => exact h
    | some w =>
      cases w with
      | messageStop => exact ⟨h.1, h.2.1, h.2.2⟩
      | contentD bs =>
        rw [hp] at hall
        exact processBlocks_invT bs s hall h

theorem processLinesS_invT : ∀ (lines : List (List Char)) (s : StreamState),
    (lines.flatMap decodeLineL).all (fun e => !(isThinkingDelta e)) = true →
    streamInvT s → streamInvT (processLinesS s lines) := by
  intro lines
  induction lines with
  | nil => intro s _ h; exact h
  | cons l ls ih =>
    intro s hall h
    rw [List.flatMap_cons, List.all_append] at hall
    simp only [Bool.and_eq_true] at hall
    obtain ⟨hl, hls⟩ := hall
    rw [processLinesS_cons]
    exact ih _ hls (processLineS_invT s l hl h)

theorem submitState_invT (prev : List Message) (input : String) (capLen : Nat)
    (ot : Option Nat) : streamInvT (submitState prev input capLen ot) := by
  refine ⟨?_, ?_, ?_⟩
  · intro m hm
    have : placeholderMessage = m := Option.some.inj hm
    rw [← this]
    exact ⟨rfl, rfl⟩
  · simp [submitState, placeholderMessage]
  · simp [submitState, placeholderMessage]

/-- C8 counterexample: the thinking field is not restricted to assistant
messages that received a thinking delta: the assistant placeholder is
created with `thinking` initialized to the empty string, so it is
present (as `some ""`) even when the stream carried no thinking delta
at all. -/
theorem thinking_presence_refuted : ¬ thinkingPresenceClaim := by
  intro h
  have hmem : placeholderMessage ∈
      (processLinesS (submitState [] "hi" 0 none) []).messages := by decide
  have := h [] "hi" 0 none [] (by decide) placeholderMessage hmem rfl
  exact absurd this (by decide)

/-- C8 amended: every streamed assistant message carries a `thinking`
field from the start, initialized to the empty string; a stream with no
thinking delta leaves the final stored assistant message with
`thinking` present but empty (`some ""`), not absent. -/
theorem thinking_field_empty_without_thinking_deltas :
    ∀ (prev : List Message) (input : String) (capLen : Nat) (ot : Option Nat)
      (lines : List (List Char)),
      ((lines.flatMap decodeLineL).all (fun e => !(isThinkingDelta e))) = true →
      placeholderMessage.thinking = some "" ∧
      (processLinesS (submitState prev input capLen ot) lines).messages.getLast?.map
        Message.role = some .assistant ∧
      (processLinesS (submitState prev input capLen ot) lines).messages.getLast?.map
        Message.thinking = some (some "") := by
  intro prev input capLen ot lines hall
  have h := processLinesS_invT lines _ hall (submitState_invT prev input capLen ot)
  exact ⟨rfl, h.2.1, h.2.2⟩

theorem thinking_field_empty_without_thinking_deltas_witness :
    placeholderMessage.thinking = some "" ∧
    (processLinesS (submitState [] "hi" 0 none) [textLine42, stopLineL]).messages.getLast?.map
      Message.role = some .assistant ∧
    (processLinesS (submitState [] "hi" 0 none) [textLine42, stopLineL]).messages.getLast?.map
      Message.thinking = some (some "") :=
  thinking_field_empty_without_thinking_deltas [] "hi" 0 none [textLine42, stopLineL]
    (by decide)

theorem scrollRun_growthBurst : ∀ (n : Nat) (s : ScrollState),
    s.isAutoScrollEnabled = true →
    scrollRun s (growthBurst n) = if n = 0 then s else { s with pending := true } := by
  intro n
  induction n with
  | zero => intro s _; rfl
  | succ k ih =>
    intro s h
    have hrep : growthBurst (k + 1) = UiEvent.growth true :: growthBurst k := rfl
    have hstep : scrollStep s (.growth true) = { s with pending := true } := by
      simp [scrollStep, h]
    rw [hrep, scrollRun_cons, hstep, ih { s with pending := true } h]
    cases k <;> simp

/-- C7: the auto-scroll flag is true exactly when the gap between the
scroll position and the content end is under the 50px threshold; when
it is false, any sequence of growth and paint events produces zero
scroll-to-end actions; when it is true, a burst of any positive number
of growth events schedules into the single pending slot (superseding,
not stacking) and the next paint fires exactly one scroll-to-end
action. -/
theorem scroll_gating_coalescing :
    (∀ (s : ScrollState) (scrollTop scrollHeight clientHeight : Int),
      (handleScrollS s scrollTop scrollHeight clientHeight).isAutoScrollEnabled = true ↔
        scrollHeight - (scrollTop + clientHeight) < 50) ∧
    (∀ (s : ScrollState) (evs : List UiEvent),
      s.isAutoScrollEnabled = false → s.pending = false →
      (scrollRun s evs).fired = s.fired ∧ (scrollRun s evs).pending = false) ∧
    (∀ (s : ScrollState) (n : Nat),
      s.isAutoScrollEnabled = true → 1 ≤ n →
      (scrollStep (scrollRun s (growthBurst n)) .paint).fired = s.fired + 1 ∧
      (scrollStep (scrollRun s (growthBurst n)) .paint).pending = false) := by
  refine ⟨?_, ?_, ?_⟩
  · intro s scrollTop scrollHeight clientHeight
    simp [handleScrollS]
  · intro s evs
    induction evs generalizing s with
    | nil => intro _ hp; exact ⟨rfl, hp⟩
    | cons e es ih =>
      intro hen hp
      have hstep : scrollStep s e = s := by
        cases e with
        | growth ne => simp [scrollStep, hen]
        | paint => simp [scrollStep, hp]
      rw [scrollRun_cons, hstep]
      exact ih s hen hp
  · intro s n hen hn
    have hne : n ≠ 0 := by omega
    rw [scrollRun_growthBurst n s hen, if_neg hne]
    constructor <;> simp [scrollStep]

theorem scroll_gating_coalescing_witness :
    ((handleScrollS ⟨true, false, 0⟩ 0 200 100).isAutoScrollEnabled = true ↔
      (200 : Int) - (0 + 100) < 50) ∧
    ((scrollRun ⟨false, false, 0⟩ [UiEvent.growth true, UiEvent.growth true,
        UiEvent.paint]).fired = (⟨false, false, 0⟩ : ScrollState).fired ∧
      (scrollRun ⟨false, false, 0⟩ [UiEvent.growth true, UiEvent.growth true,
        UiEvent.paint]).pending = false) ∧
    ((scrollStep (scrollRun ⟨true, false, 0⟩ (growthBurst 3)) .paint).fired =
      (⟨true, false, 0⟩ : ScrollState).fired + 1 ∧
      (scrollStep (scrollRun ⟨true, false, 0⟩ (growthBurst 3)) .paint).pending = false) :=
  ⟨scroll_gating_coalescing.1 ⟨true, false, 0⟩ 0 200 100,
   scroll_gating_coalescing.2.1 ⟨false, false, 0⟩
     [UiEvent.growth true, UiEvent.growth true, UiEvent.paint] rfl rfl,
   scroll_gating_coalescing.2.2 ⟨true, false, 0⟩ 3 rfl (by decide)⟩

/-- C9: on the first transcript update into a chat that still has no
stored messages and still carries the default placeholder title, the
title becomes the first 20 characters of the first (user) message; in
particular the message "How many r(')s in strawberry?" yields the title
"How many r(')s in stra". -/
theorem title_derivation :
    generateChatTitle strawberryMsg = strawberryTitle ∧
    ∀ (s : AppState) (cid : String) (c : StoredChat) (m : Message) (ms : List Message),
      s.currentChatId = some cid → c ∈ s.chats → c.id = cid →
      c.messages = [] → c.title = "New Chat" → m.role = .user →
      s.messages = m :: ms →
      { c with messages := m :: ms, title := generateChatTitle m.content } ∈
        (updateCurrentChatS s).chats := by
  constructor
  · decide
  · intro s cid c m ms hcur hmem hid hcm _ _ hmsgs
    simp only [updateCurrentChatS, hcur, hmsgs]
    refine List.mem_map.mpr ⟨c, hmem, ?_⟩
    rw [if_pos hid, hcm]
    simp

theorem title_derivation_witness :
    ({ chatA with
      messages := [userMessage strawberryMsg]
      title := generateChatTitle (userMessage strawberryMsg).content } : StoredChat) ∈
      (updateCurrentChatS strawberryStore).chats :=
  title_derivation.2 strawberryStore "a" chatA (userMessage strawberryMsg) []
    rfl (by decide) rfl rfl rfl rfl rfl

/-- C10: the durable record is written only for a nonempty list and only
clearAll erases it, so deleting the last remaining session leaves the
durable record holding the pre-deletion mapping, and a restart restores
the individually-deleted session into the selectable history alongside
the fresh session. -/
theorem storage_retains_deleted_last_session :
    ∀ (s : AppState) (c : StoredChat) (newId ts : String),
      s.chats = [c] → s.storage = some [c] →
      (deleteChatS s c.id).chats = [] ∧
      (deleteChatS s c.id).storage = some [c] ∧
      (restartS (deleteChatS s c.id).storage newId ts).chats = [c, freshChat newId ts] ∧
      c ∈ (restartS (deleteChatS s c.id).storage newId ts).chats := by
  intro s c newId ts hchats hst
  refine ⟨?_, ?_, ?_, ?_⟩
  · simp [deleteChatS, hchats]
  · simp [deleteChatS, hchats, hst, persistChats]
  · simp [restartS, deleteChatS, hchats, hst, persistChats]
  · simp [restartS, deleteChatS, hchats, hst, persistChats]

theorem storage_retains_deleted_last_session_witness :
    (deleteChatS storeSingle chatA.id).chats = [] ∧
    (deleteChatS storeSingle chatA.id).storage = some [chatA] ∧
    (restartS (deleteChatS storeSingle chatA.id).storage "b" "t2").chats =
      [chatA, freshChat "b" "t2"] ∧
    chatA ∈ (restartS (deleteChatS storeSingle chatA.id).storage "b" "t2").chats :=
  storage_retains_deleted_last_session storeSingle chatA "b" "t2" rfl rfl

end DeepClaude
